import Mathlib

/-!
Shallow embedding of the BLS signature aggregation core (`bgls/bgls.go`).

The elliptic-curve and pairing arithmetic is an external capability in the
source (the `CurveSystem` interface and the `Point`/`PointT` methods); it is
modelled here as an abstract structure of operations.  Scalars (`big.Int`)
become `Int`; messages (`[]byte`) become `List Nat`; the fallible point
operations (`Add`, `Pair` return a value and an `ok : bool` that the source
discards) become functions into a product with `Bool`.

Concurrency is modelled explicitly: every place where the source receives
results from a channel in scheduler-dependent order takes the arrival order
as an extra parameter (a `Bool` for the two-pairing single verifier, a list
`recv` that theorems constrain to be a permutation of the dispatched results
for aggregate verification and point scaling).  A channel receive that can
never be matched by a send (the empty-input aggregate verification, the
empty-input aggregation loop) is modelled by `Option`, with `none` standing
for the call blocking forever.
-/

/-- Messages are byte sequences (`[]byte` in the source). -/
abbrev Msg := List Nat

/-- Abstract curve capability consumed by the core: generators, hash-to-curve,
pairing, and the point/target-group operations.  `pair`, `addPt` and `addT`
return a `Bool` alongside their value, mirroring the `(value, ok)` returns of
the source, whose `ok` the core discards. -/
structure CurveSystem (P T : Type) where
  getG2 : P
  hashToG1 : Msg → P
  pair : P → P → T × Bool
  mul : P → Int → P
  addPt : P → P → P × Bool
  copy : P → P
  addT : T → T → T × Bool
  eqT : T → T → Bool

/-- Embedding of `LoadPublicKey`: `pubKey := curve.GetG2().Mul(sk)`. -/
def LoadPublicKey {P T : Type} (curve : CurveSystem P T) (sk : Int) : P :=
  curve.mul curve.getG2 sk

/-- Embedding of `SignCustHash`: `hash(m).Mul(sk)`. -/
def SignCustHash {P : Type} (mul : P → Int → P) (sk : Int) (m : Msg)
    (hash : Msg → P) : P :=
  mul (hash m) sk

/-- Embedding of `Sign`: `SignCustHash(sk, m, curve.HashToG1)`. -/
def Sign {P T : Type} (curve : CurveSystem P T) (sk : Int) (m : Msg) : P :=
  SignCustHash curve.mul sk m curve.hashToG1

/-- Embedding of `VerifySingleSignatureCustHash`.  The two pairing results are
sent on one channel and received in scheduler-dependent order; `firstIsSig`
records which of the two arrives first. -/
def VerifySingleSignatureCustHashArr {P T : Type} (curve : CurveSystem P T)
    (pubKey : P) (msg : Msg) (sig : P) (hash : Msg → P)
    (firstIsSig : Bool) : Bool :=
  let pSig := (curve.pair sig curve.getG2).1
  let pMsg := (curve.pair (hash msg) pubKey).1
  let e1 := if firstIsSig then pSig else pMsg
  let e2 := if firstIsSig then pMsg else pSig
  curve.eqT e1 e2

/-- Embedding of `VerifySingleSignature`: the custom-hash variant applied to
`curve.HashToG1`. -/
def VerifySingleSignatureArr {P T : Type} (curve : CurveSystem P T)
    (pubKey : P) (m : Msg) (sig : P) (firstIsSig : Bool) : Bool :=
  VerifySingleSignatureCustHashArr curve pubKey m sig curve.hashToG1 firstIsSig

/-- Loop of `containsDuplicateMessage`: `seen` is the set of messages already
inserted into the hash map (keys are `string(msg)`, i.e. byte-for-byte
equality). -/
def containsDuplicateMessageAux (seen : List Msg) : List Msg → Bool
  | [] => false
  | m :: rest =>
    if m ∈ seen then true else containsDuplicateMessageAux (m :: seen) rest

/-- Embedding of `containsDuplicateMessage`. -/
def containsDuplicateMessage (msgs : List Msg) : Bool :=
  containsDuplicateMessageAux [] msgs

/-- One round of `AggregatePoints`: each pair of adjacent points is added (the
sends of `concurrentAggregatePoints` at even indices), a lone trailing point is
carried forward unmodified. -/
def aggRound {P : Type} (add : P → P → P) : List P → List P
  | [] => []
  | [a] => [a]
  | a :: b :: rest => add a b :: aggRound add rest

/-- The reduction loop of `AggregatePoints` (`for { ... }`), with explicit
fuel.  `none` models the loop running forever without returning (as it does on
a zero-length sequence, which `aggRound` maps to itself). -/
def aggLoop {P : Type} (add : P → P → P) : Nat → List P → Option P
  | 0, _ => none
  | _ + 1, [x] => some x
  | fuel + 1, l => aggLoop add fuel (aggRound add l)

/-- Embedding of `AggregatePoints`: a two-element list is added directly; any
other list goes through one pairing round and then the reduction loop. -/
def AggregatePointsFuel {P : Type} (add : P → P → P) (fuel : Nat)
    (points : List P) : Option P :=
  match points with
  | [a, b] => some (add a b)
  | l => aggLoop add fuel (aggRound add l)

/-- Sum of a list under a binary operation, `none` on the empty list.  This is
the specification-side "group sum" that `AggregatePoints` is compared to. -/
def msum {P : Type} (add : P → P → P) : List P → Option P
  | [] => none
  | a :: t => some (t.foldl add a)

/-- The accumulate step of `msum` written over `Option`, so it has an identity
element and folds from a fixed initial value. -/
def addO {P : Type} (add : P → P → P) : Option P → P → Option P
  | none, x => some x
  | some a, x => some (add a x)

theorem foldl_addO_some {P : Type} (add : P → P → P) :
    ∀ (t : List P) (a : P), t.foldl (addO add) (some a) = some (t.foldl add a)
  | [], _ => rfl
  | x :: t, a => foldl_addO_some add t (add a x)

theorem msum_eq_foldl_addO {P : Type} (add : P → P → P) :
    ∀ l : List P, msum add l = l.foldl (addO add) none
  | [] => rfl
  | a :: t => (foldl_addO_some add t a).symm

/-- Folding a right-commutative function over a permuted list gives the same
result. -/
theorem foldl_perm {α β : Type} {f : β → α → β}
    (hf : ∀ b a₁ a₂, f (f b a₁) a₂ = f (f b a₂) a₁)
    {l₁ l₂ : List α} (p : l₁.Perm l₂) : ∀ b, l₁.foldl f b = l₂.foldl f b := by
  induction p with
  | nil => intro b; rfl
  | cons x _ ih => intro b; exact ih (f b x)
  | swap x y l => intro b; simp only [List.foldl]; rw [hf]
  | trans _ _ ih₁ ih₂ => intro b; rw [ih₁, ih₂]

theorem addO_rcomm {P : Type} (add : P → P → P)
    (hcomm : ∀ a b, add a b = add b a)
    (hassoc : ∀ a b c, add (add a b) c = add a (add b c)) :
    ∀ (b : Option P) (x y : P),
      addO add (addO add b x) y = addO add (addO add b y) x := by
  intro b x y
  cases b with
  | none => simp only [addO]; rw [hcomm]
  | some a => simp only [addO]; rw [hassoc, hassoc, hcomm x y]

/-- With a commutative and associative operation, `msum` only depends on the
multiset of elements. -/
theorem msum_perm {P : Type} (add : P → P → P)
    (hcomm : ∀ a b, add a b = add b a)
    (hassoc : ∀ a b c, add (add a b) c = add a (add b c))
    {l l' : List P} (p : l.Perm l') : msum add l = msum add l' := by
  rw [msum_eq_foldl_addO, msum_eq_foldl_addO]
  exact foldl_perm (addO_rcomm add hcomm hassoc) p none

theorem length_aggRound {P : Type} (add : P → P → P) :
    ∀ l : List P, (aggRound add l).length = (l.length + 1) / 2
  | [] => by simp [aggRound]
  | [_] => by simp [aggRound]
  | a :: b :: t => by
    simp only [aggRound, List.length_cons, length_aggRound add t]
    omega

theorem foldl_aggRound {P : Type} (add : P → P → P)
    (hassoc : ∀ a b c, add (add a b) c = add a (add b c)) :
    ∀ (l : List P) (init : P),
      (aggRound add l).foldl add init = l.foldl add init
  | [], _ => rfl
  | [_], _ => rfl
  | a :: b :: t, init => by
    simp only [aggRound, List.foldl]
    rw [foldl_aggRound add hassoc t, hassoc]

/-- One aggregation round preserves the sum (associativity suffices for the
dispatch-order round). -/
theorem msum_aggRound {P : Type} (add : P → P → P)
    (hassoc : ∀ a b c, add (add a b) c = add a (add b c)) :
    ∀ l : List P, msum add (aggRound add l) = msum add l
  | [] => rfl
  | [_] => rfl
  | a :: b :: t => by
    simp only [aggRound, msum, List.foldl]
    rw [foldl_aggRound add hassoc t]

theorem aggRound_ne_nil {P : Type} (add : P → P → P) {l : List P}
    (h : l ≠ []) : aggRound add l ≠ [] := by
  match l with
  | [] => exact absurd rfl h
  | [a] => simp [aggRound]
  | a :: b :: t => simp [aggRound]

theorem aggLoop_nil {P : Type} (add : P → P → P) :
    ∀ fuel, aggLoop add fuel ([] : List P) = none
  | 0 => rfl
  | fuel + 1 => aggLoop_nil add fuel

/-- With fuel at least the list length, the reduction loop of
`AggregatePoints` returns the sum of its (non-empty) input. -/
theorem aggLoop_eq_msum {P : Type} (add : P → P → P)
    (hassoc : ∀ a b c, add (add a b) c = add a (add b c)) :
    ∀ (fuel : Nat) (l : List P), l ≠ [] → l.length ≤ fuel →
      aggLoop add fuel l = msum add l := by
  intro fuel
  induction fuel with
  | zero =>
    intro l hne hlen
    cases l with
    | nil => exact absurd rfl hne
    | cons a t => simp at hlen
  | succ fuel ih =>
    intro l hne hlen
    match l with
    | [] => exact absurd rfl hne
    | [x] => rfl
    | a :: b :: t =>
      have hstep : aggLoop add (fuel + 1) (a :: b :: t)
          = aggLoop add fuel (aggRound add (a :: b :: t)) := rfl
      rw [hstep, ih _ (aggRound_ne_nil add (by simp)) ?_,
        msum_aggRound add hassoc]
      have hlr := length_aggRound add (a :: b :: t)
      simp only [List.length_cons] at hlr hlen
      omega

/-- Core correctness of the aggregation algorithm: with an associative
operation, `AggregatePoints` with fuel `l.length` computes the sum of any
non-empty list. -/
theorem aggregatePointsFuel_eq_msum {P : Type} (add : P → P → P)
    (hassoc : ∀ a b c, add (add a b) c = add a (add b c)) :
    ∀ l : List P, l ≠ [] → AggregatePointsFuel add l.length l = msum add l := by
  intro l hne
  match l with
  | [] => exact absurd rfl hne
  | [a] => rfl
  | [a, b] => rfl
  | a :: b :: c :: t =>
    have hunfold : AggregatePointsFuel add (a :: b :: c :: t).length
        (a :: b :: c :: t)
        = aggLoop add (a :: b :: c :: t).length
            (aggRound add (a :: b :: c :: t)) := rfl
    rw [hunfold,
      aggLoop_eq_msum add hassoc _ _ (aggRound_ne_nil add (by simp)) ?_,
      msum_aggRound add hassoc]
    have hlr := length_aggRound add (a :: b :: c :: t)
    simp only [List.length_cons] at hlr ⊢
    omega

/-- The list of per-message pairing results dispatched by `verifyAggSig`:
`curve.Pair(curve.HashToG1(msgs[i]), keys[i])` for each index. -/
def pairingList {P T : Type} (curve : CurveSystem P T) (keys : List P)
    (msgs : List Msg) : List T :=
  (msgs.zip keys).map fun mk => (curve.pair (curve.hashToG1 mk.1) mk.2).1

/-- Embedding of `verifyAggSig`.  `recv` is the order in which the `n`
per-message pairing results arrive on channel `c`; theorems constrain it to a
permutation of `pairingList`.  When no result can ever arrive (`msgs` empty
after the guards pass), the receive blocks forever: `none`. -/
def verifyAggSigArr {P T : Type} (curve : CurveSystem P T) (aggsig : P)
    (keys : List P) (msgs : List Msg) (allowDuplicates : Bool)
    (recv : List T) : Option Bool :=
  if keys.length ≠ msgs.length then some false
  else if !allowDuplicates && containsDuplicateMessage msgs then some false
  else
    match recv with
    | [] => none
    | e :: es =>
      some (curve.eqT (curve.pair aggsig curve.getG2).1
        (es.foldl (fun a b => (curve.addT a b).1) e))

/-- Embedding of `VerifyAggregateSignature`: `verifyAggSig` with
`allowDuplicates = false`. -/
def VerifyAggregateSignatureArr {P T : Type} (curve : CurveSystem P T)
    (aggsig : P) (keys : List P) (msgs : List Msg) (recv : List T) :
    Option Bool :=
  verifyAggSigArr curve aggsig keys msgs false recv

/-- Embedding of the `AggSig` struct. -/
structure AggSig (P : Type) where
  keys : List P
  msgs : List Msg
  sig : P

/-- Embedding of the method `(a *AggSig) Verify`. -/
def AggSigVerifyArr {P T : Type} (curve : CurveSystem P T) (a : AggSig P)
    (recv : List T) : Option Bool :=
  VerifyAggregateSignatureArr curve a.sig a.keys a.msgs recv

/-- The body of `concurrentScale` for one point: copy when the factor is
absent, scalar-multiply otherwise. -/
def scaleOne {P : Type} (mul : P → Int → P) (copy : P → P) (p : P)
    (f : Option Int) : P :=
  match f with
  | none => copy p
  | some k => mul p k

/-- Tags each element of a list with its index starting from `k`; models the
`indexedPoint` values sent by `concurrentScale`. -/
def indexList {α : Type} : Nat → List α → List (Nat × α)
  | _, [] => []
  | k, a :: t => (k, a) :: indexList (k + 1) t

/-- The receive loop of `scalePoints`: results arrive in order `recv` and each
is written into the output slot named by its index tag.  `dflt` is the zero
value the output slice starts with. -/
def scaleAssemble {P : Type} (dflt : P) (n : Nat)
    (recv : List (Nat × P)) : List P :=
  recv.foldl (fun arr ip => arr.set ip.1 ip.2) (List.replicate n dflt)

/-- Embedding of `scalePoints`.  `factors = none` models a nil `factors`
slice (the source returns the input slice `pts` itself); an inner `none`
models a nil `*big.Int` entry.  `recv` is the arrival order of the tagged
results; theorems constrain it to a permutation of the dispatched results. -/
def scalePoints {P : Type} (dflt : P) (mul : P → Int → P) (copy : P → P)
    (pts : List P) (factors : Option (List (Option Int)))
    (recv : List (Nat × P)) : Option (List P) :=
  match factors with
  | none => some pts
  | some fs =>
    if pts.length ≠ fs.length then none
    else some (scaleAssemble dflt pts.length recv)

/-- Modelled from the spec: the specified behavior of `scalePoints` on an
absent `factors` argument, which per the spec returns copies of the points
("copies, not aliases"), i.e. routes every point through `Copy`. -/
def scalePointsSpecNil {P : Type} (copy : P → P) (pts : List P) : List P :=
  pts.map copy

/-- A concrete, fully computable curve capability used for witnesses: both
source groups and the target group are modelled by the exponents of a fixed
generator, so a point is an `Int`, pairing is multiplication of exponents and
the target-group combining operation is addition of exponents.  Bilinearity
holds by ring arithmetic. -/
def intCurve : CurveSystem Int Int where
  getG2 := 1
  hashToG1 := fun m => Int.ofNat (m.foldl (fun a b => a * 256 + b + 1) 0)
  pair := fun p q => (p * q, true)
  mul := fun p k => p * k
  addPt := fun p q => (p + q, true)
  copy := fun p => p
  addT := fun a b => (a + b, true)
  eqT := fun a b => decide (a = b)

theorem scaleAssemble_go_length {P : Type} :
    ∀ (recv : List (Nat × P)) (init : List P),
      (recv.foldl (fun arr ip => arr.set ip.1 ip.2) init).length = init.length
  | [], _ => rfl
  | ip :: t, init => by
    simp only [List.foldl]
    rw [scaleAssemble_go_length t, List.length_set]

theorem scaleAssemble_length {P : Type} (dflt : P) (n : Nat)
    (recv : List (Nat × P)) : (scaleAssemble dflt n recv).length = n := by
  unfold scaleAssemble
  rw [scaleAssemble_go_length, List.length_replicate]

theorem scaleAssemble_go_not_mem {P : Type} :
    ∀ (recv : List (Nat × P)) (init : List P) (j : Nat),
      (∀ p, (j, p) ∉ recv) →
      (recv.foldl (fun arr ip => arr.set ip.1 ip.2) init)[j]? = init[j]?
  | [], _, _, _ => rfl
  | (i, q) :: t, init, j, hnot => by
    simp only [List.foldl]
    rw [scaleAssemble_go_not_mem t _ j (fun p hp => hnot p (List.mem_cons_of_mem _ hp))]
    have hij : i ≠ j := by
      intro h
      exact hnot q (h ▸ List.mem_cons_self _ _)
    rw [List.getElem?_set_ne hij]

theorem scaleAssemble_go_mem {P : Type} :
    ∀ (recv : List (Nat × P)) (init : List P) (j : Nat) (p : P),
      j < init.length → (j, p) ∈ recv → (∀ q, (j, q) ∈ recv → q = p) →
      (recv.foldl (fun arr ip => arr.set ip.1 ip.2) init)[j]? = some p
  | [], _, _, _, _, hmem, _ => absurd hmem (List.not_mem_nil _)
  | (i, q) :: t, init, j, p, hj, hmem, huniq => by
    simp only [List.foldl]
    by_cases hjt : ∃ r, (j, r) ∈ t
    · obtain ⟨r, hr⟩ := hjt
      have hrp : r = p := huniq r (List.mem_cons_of_mem _ hr)
      exact scaleAssemble_go_mem t _ j p
        (by rw [List.length_set]; exact hj) (hrp ▸ hr)
        (fun s hs => huniq s (List.mem_cons_of_mem _ hs))
    · push_neg at hjt
      have hhead : (j, p) = (i, q) := by
        rcases List.mem_cons.mp hmem with h | h
        · exact h
        · exact absurd h (hjt p)
      have hij : i = j := (Prod.mk.injEq _ _ _ _ ▸ hhead).1.symm
      have hqp : q = p := ((Prod.mk.injEq _ _ _ _ ▸ hhead).2).symm
      rw [hij, hqp, scaleAssemble_go_not_mem t _ j (fun r hr => hjt r hr)]
      exact List.getElem?_set_self hj

theorem mem_indexList {α : Type} :
    ∀ (t : List α) (k j : Nat) (a : α),
      (j, a) ∈ indexList k t → k ≤ j ∧ t[j - k]? = some a
  | [], _, _, _, hmem => absurd hmem (List.not_mem_nil _)
  | b :: t, k, j, a, hmem => by
    simp only [indexList, List.mem_cons] at hmem
    rcases hmem with h | h
    · have hjk : j = k := (Prod.mk.injEq _ _ _ _ ▸ h).1
      have hab : a = b := (Prod.mk.injEq _ _ _ _ ▸ h).2
      subst hjk; subst hab
      simp
    · obtain ⟨hk, hget⟩ := mem_indexList t (k + 1) j a h
      refine ⟨by omega, ?_⟩
      have : j - k = (j - (k + 1)) + 1 := by omega
      rw [this]
      simpa using hget

theorem indexList_mem {α : Type} :
    ∀ (t : List α) (k i : Nat) (a : α),
      t[i]? = some a → (k + i, a) ∈ indexList k t
  | [], _, i, _, hget => by simp at hget
  | b :: t, k, i, a, hget => by
    cases i with
    | zero =>
      simp only [List.getElem?_cons_zero, Option.some.injEq] at hget
      subst hget
      simp [indexList]
    | succ i =>
      simp only [List.getElem?_cons_succ] at hget
      have := indexList_mem t (k + 1) i a hget
      simp only [indexList, List.mem_cons]
      right
      have harith : k + (i + 1) = (k + 1) + i := by omega
      rw [harith]
      exact this

/-- Index-tagged assembly is order-independent: any arrival permutation of the
tagged results reconstructs the original list. -/
theorem scaleAssemble_perm {P : Type} (dflt : P) (L : List P)
    (recv : List (Nat × P)) (hperm : recv.Perm (indexList 0 L)) :
    scaleAssemble dflt L.length recv = L := by
  apply List.ext_getElem?
  intro j
  by_cases hj : j < L.length
  · have hLj : L[j]? = some L[j] := List.getElem?_eq_getElem hj
    have hmem : (j, L[j]) ∈ recv := by
      rw [hperm.mem_iff]
      have := indexList_mem L 0 j L[j] hLj
      simpa using this
    have huniq : ∀ q, (j, q) ∈ recv → q = L[j] := by
      intro q hq
      rw [hperm.mem_iff] at hq
      obtain ⟨-, hget⟩ := mem_indexList L 0 j q hq
      simp only [Nat.sub_zero] at hget
      rw [hLj] at hget
      exact (Option.some_inj.mp hget).symm
    unfold scaleAssemble
    rw [scaleAssemble_go_mem recv _ j L[j]
      (by rw [List.length_replicate]; exact hj) hmem huniq, hLj]
  · have h1 : (scaleAssemble dflt L.length recv)[j]? = none := by
      apply List.getElem?_eq_none
      rw [scaleAssemble_length]
      omega
    have h2 : L[j]? = none := List.getElem?_eq_none (by omega)
    rw [h1, h2]

theorem aggLoop_isSome {P : Type} (add : P → P → P) :
    ∀ (fuel : Nat) (l : List P), l ≠ [] → l.length ≤ fuel →
      (aggLoop add fuel l).isSome = true := by
  intro fuel
  induction fuel with
  | zero =>
    intro l hne hlen
    cases l with
    | nil => exact absurd rfl hne
    | cons a t => simp at hlen
  | succ fuel ih =>
    intro l hne hlen
    match l with
    | [] => exact absurd rfl hne
    | [x] => rfl
    | a :: b :: t =>
      have hstep : aggLoop add (fuel + 1) (a :: b :: t)
          = aggLoop add fuel (aggRound add (a :: b :: t)) := rfl
      rw [hstep]
      refine ih _ (aggRound_ne_nil add (by simp)) ?_
      have hlr := length_aggRound add (a :: b :: t)
      simp only [List.length_cons] at hlr hlen
      omega

/-- C6: for every non-empty list, `AggregatePoints` (run with fuel equal to
the list length, which suffices) returns the group sum of the list; the sum is
invariant under any reordering of the same multiset of points; and
`AggregatePoints([p]) = p` on a single-element list.  Commutativity and
associativity of the group addition are the curve-capability contract the
source relies on. -/
theorem claim_C6 {P : Type} (add : P → P → P)
    (hcomm : ∀ a b, add a b = add b a)
    (hassoc : ∀ a b c, add (add a b) c = add a (add b c)) :
    (∀ l : List P, l ≠ [] → AggregatePointsFuel add l.length l = msum add l)
    ∧ (∀ l l' : List P, l.Perm l' → msum add l = msum add l')
    ∧ (∀ p : P, AggregatePointsFuel add 1 [p] = some p) := by
  refine ⟨aggregatePointsFuel_eq_msum add hassoc, ?_, ?_⟩
  · intro l l' hp
    exact msum_perm add hcomm hassoc hp
  · intro p
    simp [AggregatePointsFuel, aggRound, aggLoop]

theorem claim_C6_witness :
    AggregatePointsFuel (fun a b : Int => a + b) 3 [1, 2, 3]
        = msum (fun a b : Int => a + b) [1, 2, 3]
    ∧ msum (fun a b : Int => a + b) [1, 2, 3]
        = msum (fun a b : Int => a + b) [3, 1, 2]
    ∧ AggregatePointsFuel (fun a b : Int => a + b) 1 [(7 : Int)] = some 7 := by
  have h := claim_C6 (fun a b : Int => a + b)
    (fun a b => Int.add_comm a b) (fun a b c => Int.add_assoc a b c)
  exact ⟨h.1 [1, 2, 3] (by decide), h.2.1 [1, 2, 3] [3, 1, 2] (by decide),
    h.2.2 7⟩

/-- C10: `AggregatePoints` terminates (returns a value for some finite fuel)
on every non-empty input, but on the empty list the reduction loop maps the
zero-length sequence to itself forever, so no amount of fuel produces a
result: the call neither returns an identity element nor reports an error. -/
theorem claim_C10 {P : Type} (add : P → P → P) :
    (∀ fuel, AggregatePointsFuel add fuel ([] : List P) = none)
    ∧ (∀ l : List P, l ≠ [] →
        (AggregatePointsFuel add l.length l).isSome = true) := by
  constructor
  · intro fuel
    have h1 : AggregatePointsFuel add fuel ([] : List P)
        = aggLoop add fuel (aggRound add []) := rfl
    have h2 : aggRound add ([] : List P) = [] := rfl
    rw [h1, h2, aggLoop_nil]
  · intro l hne
    match l with
    | [a] => rfl
    | [a, b] => rfl
    | a :: b :: c :: t =>
      have h1 : AggregatePointsFuel add (a :: b :: c :: t).length
          (a :: b :: c :: t)
          = aggLoop add (a :: b :: c :: t).length
              (aggRound add (a :: b :: c :: t)) := rfl
      rw [h1]
      refine aggLoop_isSome add _ _ (aggRound_ne_nil add (by simp)) ?_
      have hlr := length_aggRound add (a :: b :: c :: t)
      simp only [List.length_cons] at hlr ⊢
      omega

theorem claim_C10_witness :
    AggregatePointsFuel (fun a b : Int => a + b) 5 ([] : List Int) = none
    ∧ (AggregatePointsFuel (fun a b : Int => a + b) 1 [(4 : Int)]).isSome
        = true :=
  ⟨(claim_C10 (fun a b : Int => a + b)).1 5,
    (claim_C10 (fun a b : Int => a + b)).2 [4] (by decide)⟩

/-- Malformed-shape rejection of `verifyAggSig`: both guard failures return
`false` for every curve, aggregate signature and arrival order, i.e. before
any pairing result is consulted. -/
theorem verifyAggSig_malformed {P T : Type} (curve : CurveSystem P T)
    (aggsig : P) (keys : List P) (msgs : List Msg) (recv : List T)
    (h : keys.length ≠ msgs.length ∨ containsDuplicateMessage msgs = true) :
    VerifyAggregateSignatureArr curve aggsig keys msgs recv = some false := by
  unfold VerifyAggregateSignatureArr verifyAggSigArr
  by_cases hlen : keys.length ≠ msgs.length
  · rw [if_pos hlen]
  · rw [if_neg hlen]
    rcases h with h | h
    · exact absurd h hlen
    · rw [if_pos (by simp [h])]

/-- When both guards pass and the combined per-message pairing value is `c`,
`VerifyAggregateSignature` returns the pairing-equality test against `c`. -/
theorem verifyAggSig_eq {P T : Type} (curve : CurveSystem P T) (aggsig : P)
    (keys : List P) (msgs : List Msg) (recv : List T)
    (hlen : keys.length = msgs.length)
    (hdup : containsDuplicateMessage msgs = false) (c : T)
    (hc : msum (fun a b => (curve.addT a b).1) recv = some c) :
    VerifyAggregateSignatureArr curve aggsig keys msgs recv
      = some (curve.eqT (curve.pair aggsig curve.getG2).1 c) := by
  unfold VerifyAggregateSignatureArr verifyAggSigArr
  rw [if_neg (by omega), if_neg (by simp [hdup])]
  cases recv with
  | nil => simp [msum] at hc
  | cons e es =>
    simp only [msum, Option.some.injEq] at hc
    subst hc
    rfl

/-- C3: `VerifyAggregateSignature` returns `false` whenever the key and
message sequences have different lengths, and whenever two messages are
byte-for-byte identical.  The statement quantifies over every curve, aggregate
signature and arrival order `recv`, so the result is independent of every
pairing value: the rejection happens before any pairing is consulted. -/
theorem claim_C3 {P T : Type} (curve : CurveSystem P T) (aggsig : P)
    (keys : List P) (msgs : List Msg) (recv : List T)
    (h : keys.length ≠ msgs.length ∨ containsDuplicateMessage msgs = true) :
    VerifyAggregateSignatureArr curve aggsig keys msgs recv = some false :=
  verifyAggSig_malformed curve aggsig keys msgs recv h

theorem claim_C3_witness :
    VerifyAggregateSignatureArr intCurve 5 [] [[0]] [] = some false
    ∧ VerifyAggregateSignatureArr intCurve 5 [1, 2] [[0], [0]] [] = some false :=
  ⟨claim_C3 intCurve 5 [] [[0]] [] (Or.inl (by decide)),
    claim_C3 intCurve 5 [1, 2] [[0], [0]] [] (Or.inr (by decide))⟩

/-- C7 counterexample: on equal-length empty `keys` and `msgs` the guards
pass, the source dispatches zero per-message pairings and then executes
`e2 := <-c`, a receive no goroutine will ever match, so the call blocks
forever (modelled `none`) instead of returning a boolean.  The empty list is
the only possible arrival order, since no result is ever sent. -/
theorem claim_C7_counterexample :
    VerifyAggregateSignatureArr intCurve 0 [] [] [] = none
    ∧ AggSigVerifyArr intCurve ⟨[], [], 0⟩ [] = none :=
  ⟨rfl, rfl⟩

/-- C7 (amended): for every input whose message list is non-empty, or which is
malformed (length mismatch or duplicate message), `VerifyAggregateSignature`
and `AggSig.Verify` return a definite boolean, and malformed instances return
`false`; but on equal-length empty `keys` and `msgs` the call blocks forever
on a channel receive that is never matched, returning no result at all. -/
theorem claim_C7_amended {P T : Type} (curve : CurveSystem P T) (aggsig : P)
    (keys : List P) (msgs : List Msg) (recv : List T)
    (hperm : recv.Perm (pairingList curve keys msgs))
    (h : msgs ≠ [] ∨ keys.length ≠ msgs.length
        ∨ containsDuplicateMessage msgs = true) :
    (VerifyAggregateSignatureArr curve aggsig keys msgs recv).isSome = true
    ∧ ((keys.length ≠ msgs.length ∨ containsDuplicateMessage msgs = true) →
        VerifyAggregateSignatureArr curve aggsig keys msgs recv = some false)
    ∧ AggSigVerifyArr curve ⟨keys, msgs, aggsig⟩ recv
        = VerifyAggregateSignatureArr curve aggsig keys msgs recv := by
  refine ⟨?_, fun hbad => verifyAggSig_malformed curve aggsig keys msgs recv
    hbad, rfl⟩
  by_cases hlen : keys.length ≠ msgs.length
  · rw [verifyAggSig_malformed curve aggsig keys msgs recv (Or.inl hlen)]
    rfl
  · by_cases hdup : containsDuplicateMessage msgs = true
    · rw [verifyAggSig_malformed curve aggsig keys msgs recv (Or.inr hdup)]
      rfl
    · have hmne : msgs ≠ [] := by
        rcases h with h | h | h
        · exact h
        · exact absurd h hlen
        · exact absurd h hdup
      have hrne : recv ≠ [] := by
        intro hnil
        have hlen2 := hperm.length_eq
        rw [hnil] at hlen2
        have hple : (pairingList curve keys msgs).length
            = min msgs.length keys.length := by
          simp [pairingList]
        cases msgs with
        | nil => exact absurd rfl hmne
        | cons m ms =>
          push_neg at hlen
          simp [pairingList, hlen] at hlen2
      cases recv with
      | nil => exact absurd rfl hrne
      | cons e es =>
        rw [verifyAggSig_eq curve aggsig keys msgs (e :: es)
          (by push_neg at hlen; exact hlen) (by simpa using hdup)
          (es.foldl (fun a b => (curve.addT a b).1) e) rfl]
        rfl

theorem claim_C7_amended_witness :
    (VerifyAggregateSignatureArr intCurve 5 [1] [[0]]
        (pairingList intCurve [1] [[0]])).isSome = true
    ∧ (([1] : List Int).length ≠ ([[0]] : List Msg).length
        ∨ containsDuplicateMessage [[0]] = true →
        VerifyAggregateSignatureArr intCurve 5 [1] [[0]]
          (pairingList intCurve [1] [[0]]) = some false)
    ∧ AggSigVerifyArr intCurve ⟨[1], [[0]], 5⟩
          (pairingList intCurve [1] [[0]])
        = VerifyAggregateSignatureArr intCurve 5 [1] [[0]]
            (pairingList intCurve [1] [[0]]) :=
  claim_C7_amended intCurve 5 [1] [[0]] (pairingList intCurve [1] [[0]])
    (List.Perm.refl _) (Or.inl (by decide))

/-- C9 counterexample: the source returns the input slice itself when
`factors` is nil (`return pts`), never invoking `Copy`; so with a copy
operation whose output is distinguishable from its input, the result differs
from the spec-mandated per-point copies.  The returned points are aliases of
the inputs, not copies. -/
theorem claim_C9_counterexample :
    scalePoints (0 : Nat) (fun p _ => p) Nat.succ [0] none [] = some [0]
    ∧ scalePointsSpecNil Nat.succ [0] = [1]
    ∧ ([0] : List Nat) ≠ [1] :=
  ⟨rfl, rfl, by decide⟩

/-- C9 (amended): `scalePoints(points, nil)` returns the `points` slice
itself — values equal to `points`, but the very same points (aliases), with
`Copy` never invoked: the result is independent of the copy and multiply
operations and of the arrival order. -/
theorem claim_C9_amended {P : Type} (dflt : P) (mul : P → Int → P)
    (copy : P → P) (pts : List P) (recv : List (Nat × P)) :
    scalePoints dflt mul copy pts none recv = some pts :=
  rfl

/-- C8: with `factors` present, `scalePoints` returns `none` (nil) when the
lengths differ, with no partial output; otherwise the result pairs each point
with its factor — multiplied when the factor is present, copied unscaled when
it is absent — has the same length as `points`, and preserves input order for
every arrival order `recv` of the index-tagged concurrent results. -/
theorem claim_C8 {P : Type} (dflt : P) (mul : P → Int → P) (copy : P → P)
    (pts : List P) (fs : List (Option Int)) (recv : List (Nat × P))
    (hperm : recv.Perm (indexList 0
      ((pts.zip fs).map fun pf => scaleOne mul copy pf.1 pf.2))) :
    (pts.length ≠ fs.length →
      scalePoints dflt mul copy pts (some fs) recv = none)
    ∧ (pts.length = fs.length →
        scalePoints dflt mul copy pts (some fs) recv
          = some ((pts.zip fs).map fun pf => scaleOne mul copy pf.1 pf.2)
        ∧ ((pts.zip fs).map fun pf => scaleOne mul copy pf.1 pf.2).length
            = pts.length) := by
  constructor
  · intro hne
    simp [scalePoints, hne]
  · intro hlen
    have hL : ((pts.zip fs).map fun pf => scaleOne mul copy pf.1 pf.2).length
        = pts.length := by
      rw [List.length_map, List.length_zip, hlen, Nat.min_self]
    refine ⟨?_, hL⟩
    have hassem := scaleAssemble_perm dflt
      ((pts.zip fs).map fun pf => scaleOne mul copy pf.1 pf.2) recv hperm
    rw [hL] at hassem
    have hif : scalePoints dflt mul copy pts (some fs) recv
        = if pts.length ≠ fs.length then none
          else some (scaleAssemble dflt pts.length recv) := rfl
    rw [hif, if_neg (by omega), hassem]

theorem claim_C8_witness :
    (((2 : Nat) ≠ 2) →
      scalePoints (0 : Int) (fun p k => p * k) (fun p => p) [10, 20]
        (some [some 3, none]) [(1, 20), (0, 30)] = none)
    ∧ ((2 : Nat) = 2 →
        scalePoints (0 : Int) (fun p k => p * k) (fun p => p) [10, 20]
            (some [some 3, none]) [(1, 20), (0, 30)]
          = some ((([10, 20] : List Int).zip [some 3, none]).map
              fun pf => scaleOne (fun p k => p * k) (fun p => p) pf.1 pf.2)
        ∧ ((([10, 20] : List Int).zip [some 3, none]).map
            fun pf => scaleOne (fun p k => p * k) (fun p => p) pf.1 pf.2).length
          = ([10, 20] : List Int).length) :=
  claim_C8 (0 : Int) (fun p k => p * k) (fun p => p) [10, 20]
    [some 3, none] [(1, 20), (0, 30)] (by decide)

/-- C1: completeness of single-signature verification.  For every secret key
`sk` with `publicKey = LoadPublicKey(curve, sk)` and every message `m`,
`VerifySingleSignature(curve, publicKey, m, Sign(curve, sk, m))` returns
`true`, for either arrival order of the two concurrently evaluated pairings.
`hswap` is the bilinearity of the pairing in the scalar (moving the secret
scalar between the two arguments) and `hrefl` the reflexivity of the
target-group equality — the curve-capability contract the source relies on. -/
theorem claim_C1 {P T : Type} (curve : CurveSystem P T)
    (hswap : ∀ (p q : P) (k : Int),
      curve.pair (curve.mul p k) q = curve.pair p (curve.mul q k))
    (hrefl : ∀ a, curve.eqT a a = true)
    (sk : Int) (m : Msg) (firstIsSig : Bool) :
    VerifySingleSignatureArr curve (LoadPublicKey curve sk) m
      (Sign curve sk m) firstIsSig = true := by
  have hpair : curve.pair (Sign curve sk m) curve.getG2
      = curve.pair (curve.hashToG1 m) (LoadPublicKey curve sk) :=
    hswap _ _ _
  cases firstIsSig with
  | true =>
    have hshow : VerifySingleSignatureArr curve (LoadPublicKey curve sk) m
        (Sign curve sk m) true
        = curve.eqT (curve.pair (Sign curve sk m) curve.getG2).1
            (curve.pair (curve.hashToG1 m) (LoadPublicKey curve sk)).1 := rfl
    rw [hshow, hpair, hrefl]
  | false =>
    have hshow : VerifySingleSignatureArr curve (LoadPublicKey curve sk) m
        (Sign curve sk m) false
        = curve.eqT (curve.pair (curve.hashToG1 m) (LoadPublicKey curve sk)).1
            (curve.pair (Sign curve sk m) curve.getG2).1 := rfl
    rw [hshow, hpair, hrefl]

theorem claim_C1_witness :
    VerifySingleSignatureArr intCurve (LoadPublicKey intCurve 2) [0]
      (Sign intCurve 2 [0]) true = true :=
  claim_C1 intCurve (by intro p q k; simp [intCurve]; ring)
    (by intro a; simp [intCurve]) 2 [0] true

/-- C5: `VerifySingleSignature` returns `true` exactly when the target-group
equality test between `pairing(signature, G2_generator)` and
`pairing(HashToCurveG1(message), publicKey)` succeeds, for either arrival
order of the two pairing results (the source compares them in arrival order,
so symmetry of the equality is the contract used); being a total function
into `Bool`, it never raises for a mathematically invalid signature. -/
theorem claim_C5 {P T : Type} (curve : CurveSystem P T)
    (hsym : ∀ a b, curve.eqT a b = curve.eqT b a)
    (pubKey : P) (m : Msg) (sig : P) (firstIsSig : Bool) :
    (VerifySingleSignatureArr curve pubKey m sig firstIsSig = true
      ↔ curve.eqT (curve.pair sig curve.getG2).1
          (curve.pair (curve.hashToG1 m) pubKey).1 = true) := by
  cases firstIsSig with
  | true => exact Iff.rfl
  | false =>
    have hshow : VerifySingleSignatureArr curve pubKey m sig false
        = curve.eqT (curve.pair (curve.hashToG1 m) pubKey).1
            (curve.pair sig curve.getG2).1 := rfl
    rw [hshow, hsym]

theorem claim_C5_witness :
    (VerifySingleSignatureArr intCurve 0 [] 5 false = true
      ↔ intCurve.eqT (intCurve.pair 5 intCurve.getG2).1
          (intCurve.pair (intCurve.hashToG1 []) 0).1 = true) :=
  claim_C5 intCurve
    (by intro a b; simp only [intCurve]; exact decide_eq_decide.mpr eq_comm)
    0 [] 5 false

/-- C2: completeness of aggregate verification for two signers on two
distinct messages.  With `sig1 = Sign(sk1, m1)`, `sig2 = Sign(sk2, m2)` and
`agg = AggregatePoints([sig1, sig2])` (the two-element direct-addition path),
`VerifyAggregateSignature(curve, agg, [pk1, pk2], [m1, m2])` returns `true`
for every arrival order of the pairing results.  The hypotheses are the
curve-capability contract: bilinearity of the pairing in the scalar and in
point addition, commutativity/associativity of the target-group combining
operation, and reflexivity of the target-group equality. -/
theorem claim_C2 {P T : Type} (curve : CurveSystem P T)
    (hswap : ∀ (p q : P) (k : Int),
      curve.pair (curve.mul p k) q = curve.pair p (curve.mul q k))
    (haddPt : ∀ p q r, (curve.pair (curve.addPt p q).1 r).1
        = (curve.addT (curve.pair p r).1 (curve.pair q r).1).1)
    (hcommT : ∀ a b, (curve.addT a b).1 = (curve.addT b a).1)
    (hassocT : ∀ a b c, (curve.addT (curve.addT a b).1 c).1
        = (curve.addT a (curve.addT b c).1).1)
    (hrefl : ∀ a, curve.eqT a a = true)
    (sk1 sk2 : Int) (m1 m2 : Msg) (hm : m1 ≠ m2) (recv : List T)
    (hperm : recv.Perm (pairingList curve
      [LoadPublicKey curve sk1, LoadPublicKey curve sk2] [m1, m2]))
    (agg : P)
    (hagg : AggregatePointsFuel (fun p q => (curve.addPt p q).1) 2
        [Sign curve sk1 m1, Sign curve sk2 m2] = some agg) :
    VerifyAggregateSignatureArr curve agg
      [LoadPublicKey curve sk1, LoadPublicKey curve sk2] [m1, m2] recv
      = some true := by
  have haggv : agg = (curve.addPt (Sign curve sk1 m1) (Sign curve sk2 m2)).1 := by
    have hred : AggregatePointsFuel (fun p q => (curve.addPt p q).1) 2
        [Sign curve sk1 m1, Sign curve sk2 m2]
        = some ((curve.addPt (Sign curve sk1 m1) (Sign curve sk2 m2)).1) := rfl
    rw [hred] at hagg
    exact (Option.some_inj.mp hagg).symm
  have hdup : containsDuplicateMessage [m1, m2] = false := by
    simp [containsDuplicateMessage, containsDuplicateMessageAux, Ne.symm hm]
  have hmsum : msum (fun a b => (curve.addT a b).1)
      (pairingList curve
        [LoadPublicKey curve sk1, LoadPublicKey curve sk2] [m1, m2])
      = some ((curve.addT
          (curve.pair (curve.hashToG1 m1) (LoadPublicKey curve sk1)).1
          (curve.pair (curve.hashToG1 m2) (LoadPublicKey curve sk2)).1).1) :=
    rfl
  have hcomb := (msum_perm (fun a b => (curve.addT a b).1) hcommT hassocT
    hperm).trans hmsum
  rw [verifyAggSig_eq curve agg
    [LoadPublicKey curve sk1, LoadPublicKey curve sk2] [m1, m2] recv rfl hdup
    _ hcomb]
  have h1 : curve.pair (Sign curve sk1 m1) curve.getG2
      = curve.pair (curve.hashToG1 m1) (LoadPublicKey curve sk1) :=
    hswap _ _ _
  have h2 : curve.pair (Sign curve sk2 m2) curve.getG2
      = curve.pair (curve.hashToG1 m2) (LoadPublicKey curve sk2) :=
    hswap _ _ _
  have he1 : (curve.pair agg curve.getG2).1
      = (curve.addT
          (curve.pair (curve.hashToG1 m1) (LoadPublicKey curve sk1)).1
          (curve.pair (curve.hashToG1 m2) (LoadPublicKey curve sk2)).1).1 := by
    rw [haggv, haddPt, h1, h2]
  rw [he1, hrefl]

theorem claim_C2_witness :
    VerifyAggregateSignatureArr intCurve
        ((intCurve.addPt (Sign intCurve 2 [0]) (Sign intCurve 3 [1])).1)
        [LoadPublicKey intCurve 2, LoadPublicKey intCurve 3] [[0], [1]]
        (pairingList intCurve
          [LoadPublicKey intCurve 2, LoadPublicKey intCurve 3] [[0], [1]])
      = some true :=
  claim_C2 intCurve
    (by intro p q k; simp [intCurve]; ring)
    (by intro p q r; simp [intCurve]; ring)
    (by intro a b; simp [intCurve]; ring)
    (by intro a b c; simp [intCurve]; ring)
    (by intro a; simp [intCurve])
    2 3 [0] [1] (by decide)
    (pairingList intCurve
      [LoadPublicKey intCurve 2, LoadPublicKey intCurve 3] [[0], [1]])
    (List.Perm.refl _)
    ((intCurve.addPt (Sign intCurve 2 [0]) (Sign intCurve 3 [1])).1) rfl

/-- C4: soundness and completeness of the pairing comparison.  When the
lengths match, the messages are distinct and the call returns (the message
list is non-empty, so every channel receive is matched), the result is `true`
exactly when the combination of the per-message pairings — in any order, the
combining operation being commutative and associative — equals
`pairing(aggSig, G2_generator)`.  The arrival order `recv` ranges over all
permutations of the dispatched pairing results. -/
theorem claim_C4 {P T : Type} (curve : CurveSystem P T)
    (hcommT : ∀ a b, (curve.addT a b).1 = (curve.addT b a).1)
    (hassocT : ∀ a b c, (curve.addT (curve.addT a b).1 c).1
        = (curve.addT a (curve.addT b c).1).1)
    (heq : ∀ a b, (curve.eqT a b = true ↔ a = b))
    (aggsig : P) (keys : List P) (msgs : List Msg) (recv : List T)
    (hlen : keys.length = msgs.length)
    (hdup : containsDuplicateMessage msgs = false)
    (hperm : recv.Perm (pairingList curve keys msgs))
    (hret : VerifyAggregateSignatureArr curve aggsig keys msgs recv ≠ none) :
    (VerifyAggregateSignatureArr curve aggsig keys msgs recv = some true
      ↔ msum (fun a b => (curve.addT a b).1) (pairingList curve keys msgs)
          = some (curve.pair aggsig curve.getG2).1) := by
  cases recv with
  | nil =>
    exfalso
    apply hret
    unfold VerifyAggregateSignatureArr verifyAggSigArr
    rw [if_neg (by omega), if_neg (by simp [hdup])]
  | cons e es =>
    have hc : msum (fun a b => (curve.addT a b).1) (e :: es)
        = some (es.foldl (fun a b => (curve.addT a b).1) e) := rfl
    rw [verifyAggSig_eq curve aggsig keys msgs (e :: es) hlen hdup _ hc]
    have hpm : msum (fun a b => (curve.addT a b).1)
        (pairingList curve keys msgs)
        = some (es.foldl (fun a b => (curve.addT a b).1) e) :=
      (msum_perm (fun a b => (curve.addT a b).1) hcommT hassocT hperm).symm.trans
        hc
    rw [hpm]
    constructor
    · intro h
      have h1 : curve.eqT (curve.pair aggsig curve.getG2).1
          (es.foldl (fun a b => (curve.addT a b).1) e) = true :=
        Option.some_inj.mp h
      rw [(heq _ _).mp h1]
    · intro h
      have h1 : es.foldl (fun a b => (curve.addT a b).1) e
          = (curve.pair aggsig curve.getG2).1 := Option.some_inj.mp h
      have h2 : curve.eqT (curve.pair aggsig curve.getG2).1
          (es.foldl (fun a b => (curve.addT a b).1) e) = true :=
        (heq _ _).mpr h1.symm
      rw [h2]

theorem claim_C4_witness :
    (VerifyAggregateSignatureArr intCurve 5 [2, 3] [[0], [1]]
        (pairingList intCurve [2, 3] [[0], [1]]) = some true
      ↔ msum (fun a b => (intCurve.addT a b).1)
            (pairingList intCurve [2, 3] [[0], [1]])
          = some (intCurve.pair 5 intCurve.getG2).1) :=
  claim_C4 intCurve
    (by intro a b; simp [intCurve]; ring)
    (by intro a b c; simp [intCurve]; ring)
    (by intro a b; simp [intCurve])
    5 [2, 3] [[0], [1]] (pairingList intCurve [2, 3] [[0], [1]])
    rfl (by decide) (List.Perm.refl _) (by decide)
